import Mathlib

/-!
# Verification of the backpak storage layer, diff engine, and index rebuild

Shallow embedding of `src/backend.rs`, `src/diff.rs` and
`src/ui/rebuild_index.rs`, with the pieces those files use from modules not
present in the sources (the object-id type from `hashing.rs`, the cache from
`backend/cache.rs`, tree nodes from `tree.rs`, and the indexer/uploader from
`index.rs`/`upload.rs`) modelled from the specification.

Byte streams are modelled as lists of naturals; file handles carry a content
list and a read position.  Operations that panic in the source are embedded
as `Option`-returning functions where `none` is the panic.
-/

namespace Backpak

/-! ## Path utilities

`destination` and `id_from_path` in `backend.rs` use `camino::Utf8Path`
(`extension`, `file_stem`, `file_name`).  We embed those path-name rules for
the path shapes this repository produces (no trailing separators, no `..`
path traversal): the file name is what follows the last `/`; the extension
is what follows the last `.` of the file name, unless that `.` is its first
character; the stem is what precedes that `.`.
-/

/-- Split a character list at the last occurrence of `c`:
`splitLast c l = some (a, b)` when `l = a ++ [c] ++ b` and `c ∉ b`. -/
def splitLast (c : Char) : List Char → Option (List Char × List Char)
  | [] => none
  | x :: xs =>
    match splitLast c xs with
    | some (a, b) => some (x :: a, b)
    | none => if x = c then some ([], xs) else none

/-- The final component of a path: what follows the last `/`.
`none` for the empty name and the special components `.` and `..`
(mirroring `Utf8Path::file_name`). -/
def fileName (s : String) : Option (List Char) :=
  let name :=
    match splitLast '/' s.toList with
    | some (_, b) => b
    | none => s.toList
  if name = [] ∨ name = ['.'] ∨ name = ['.', '.'] then none else some name

/-- `Utf8Path::extension`: the part of the file name after its last `.`,
`none` when there is no `.` or when the only `.` starts the name. -/
def extension (s : String) : Option String :=
  match fileName s with
  | none => none
  | some n =>
    match splitLast '.' n with
    | none => none
    | some (a, b) => if a = [] then none else some b.asString

/-- `Utf8Path::file_stem`: the file name up to its last `.` (the whole name
when there is no `.` or when the name starts with its only `.`). -/
def fileStem (s : String) : Option String :=
  match fileName s with
  | none => none
  | some n =>
    match splitLast '.' n with
    | none => some n.asString
    | some (a, _) => if a = [] then some n.asString else some a.asString

/-- `backend.rs::destination`: map a flat object name to its repository key
by extension.  `none` embeds the `panic!` on any other extension. -/
def destination (src : String) : Option String :=
  match extension src with
  | some e =>
    if e = "pack" then some ("packs/" ++ src)
    else if e = "index" then some ("indexes/" ++ src)
    else if e = "snapshot" then some ("snapshots/" ++ src)
    else none
  | none => none

/-! ## Object IDs

Modelled from the spec: `hashing.rs` (the `ObjectId` type) is not under
`src/`.  Per the spec an object id serializes to a base32 string
(lowercase letters and digits 2–7), so its rendering never contains `/` or
`.` and is never empty.  We model an id by its base32 rendering: a string
satisfying `validId`; `ObjectId::to_string` is the identity and
`ObjectId::from_str` checks validity. -/

/-- A base32 character: lowercase `a`–`z` or digit `2`–`7`. -/
def isB32 (c : Char) : Bool :=
  (('a' ≤ c ∧ c ≤ 'z') ∨ ('2' ≤ c ∧ c ≤ '7') : Prop)

/-- A valid object-id rendering: nonempty, all base32 characters. -/
def validId (s : String) : Bool :=
  !s.toList.isEmpty && s.toList.all isB32

/-- Modelled from the spec: `ObjectId::from_str`, parsing a base32 string. -/
def idFromStr (s : String) : Option String :=
  if validId s then some s else none

/-- `backend.rs::id_from_path`: parse the object id from a path by taking its
file stem; errors (`none`) when there is no stem or the stem is not valid
base32. -/
def idFromPath (path : String) : Option String :=
  match fileStem path with
  | none => none
  | some stem => idFromStr stem

/-! ## probe_pack -/

/-- Outcome of `backend.rs::probe_pack`: `Ok(())`, a recoverable `bail!`
error, or the `panic!` on repository corruption. -/
inductive ProbeOutcome where
  | ok : ProbeOutcome
  | notFound : ProbeOutcome
  | fatalPanic : ProbeOutcome
  deriving DecidableEq, Repr

/-- `backend.rs::probe_pack`: count the listing entries whose key equals
`packs/<id>.pack`; zero is a recoverable error, one is success, more than
one panics. -/
def probePack (packs : List (String × Nat)) (id : String) : ProbeOutcome :=
  let pack_path := "packs/" ++ id ++ ".pack"
  let found_packs := (packs.map Prod.fst).filter (fun s => s = pack_path)
  match found_packs.length with
  | 0 => .notFound
  | 1 => .ok
  | _ => .fatalPanic

/-! ## Byte stores, file handles, and the cache

Byte streams are lists of naturals.  A `FileH` is an open file handle: its
on-disk content plus the current read position.  A `Store` is an
association list from key to content (first binding wins), standing both
for a concrete backend's key space and for the cache directory.

The cache (`backend/cache.rs`) is not under `src/`; it is modelled from the
spec (§4.3): a size-bounded store kept in least-recently-used-first order,
where `insert`/`insert_file` (re)append an entry at the most-recent end and
`prune` evicts from the least-recent end until the total size is within
budget.  Per §4.4 the handle `insert` returns is positioned at the end of
the just-written entry, which is why the read path must rewind it. -/

abbrev Bytes := List Nat

/-- An open file handle: content plus current position. -/
structure FileH where
  content : Bytes
  pos : Nat
  deriving DecidableEq, Repr

/-- `File::seek(SeekFrom::Start(0))`. -/
def FileH.seekStart (fh : FileH) : FileH := ⟨fh.content, 0⟩

/-- Read the stream to its end from the current position. -/
def FileH.readToEnd (fh : FileH) : Bytes := fh.content.drop fh.pos

abbrev Store := List (String × Bytes)

def Store.lookup (st : Store) (k : String) : Option Bytes :=
  match st with
  | [] => none
  | (k2, v) :: rest => if k2 = k then some v else Store.lookup rest k

/-- Drop every binding of `k`. -/
def Store.remove (st : Store) (k : String) : Store :=
  st.filter (fun e => e.1 ≠ k)

/-- Bind `k` to `v`, dropping any previous binding; the new entry goes to
the most-recently-used end. -/
def Store.insert (st : Store) (k : String) (v : Bytes) : Store :=
  Store.remove st k ++ [(k, v)]

/-- Total number of content bytes held. -/
def cacheSize (c : Store) : Nat := (c.map (fun e => e.2.length)).sum

/-- Modelled from the spec: `cache::prune` evicts least-recently-used
entries (list front) until the total size is within `budget`. -/
def prune (budget : Nat) : Store → Store
  | [] => []
  | e :: rest =>
    if cacheSize (e :: rest) ≤ budget then e :: rest else prune budget rest

/-! ## CachedBackend, Cached mode -/

/-- `backend.rs::CacheBehavior`. -/
inductive CacheBehavior where
  | normal : CacheBehavior
  | alwaysRead : CacheBehavior
  deriving DecidableEq, Repr

/-- Observable effects of one `CachedBackend` operation, in order. -/
inductive Ev where
  /-- the temp file handle is rewound to offset zero -/
  | rewind : Ev
  /-- `content` is streamed to the inner backend under `key` -/
  | backendWrite (key : String) (content : Bytes) : Ev
  /-- `content` is streamed from the inner backend at `key` -/
  | backendRead (key : String) (content : Bytes) : Ev
  /-- the inner backend reported `key` missing -/
  | backendReadFail (key : String) : Ev
  /-- `cache.try_read(name)` hit -/
  | cacheTryReadHit (name : String) : Ev
  /-- `cache.insert(name, stream)` -/
  | cacheInsert (name : String) (content : Bytes) : Ev
  /-- `cache.insert_file(name, file)` -/
  | cacheInsertFile (name : String) (content : Bytes) : Ev
  /-- `cache.prune()` -/
  | cachePrune : Ev
  /-- the handle about to be returned is rewound to offset zero -/
  | seekZero : Ev
  /-- `std::fs::remove_file(name)` -/
  | removeTempFile (name : String) : Ev
  deriving DecidableEq, Repr

/-- State of a `CachedBackendKind::Cached` backend: the cache store with its
budget and behavior, and the inner backend's key space. -/
structure CachedState where
  cache : Store
  budget : Nat
  behavior : CacheBehavior
  backendStore : Store
  deriving DecidableEq, Repr

inductive ReadErr where
  | notFound : ReadErr
  deriving DecidableEq, Repr

/-- `CachedBackend::read`, `Cached` arm: consult the cache unless behavior
is `AlwaysRead`; on a hit return the cached handle, else stream the object
from the inner backend into the cache, prune, rewind, return.  Returns the
new state, the effect trace, the bytes added to `bytes_downloaded`, and the
result; `none` embeds the `destination` panic. -/
def cachedRead (st : CachedState) (name : String) :
    Option (CachedState × List Ev × Nat × Except ReadErr FileH) :=
  match destination name with
  | none => none
  | some d =>
    let tr := if st.behavior = .alwaysRead then none else st.cache.lookup name
    match tr with
    | some hit => some (st, [.cacheTryReadHit name], 0, .ok ⟨hit, 0⟩)
    | none =>
      match st.backendStore.lookup d with
      | none => some (st, [.backendReadFail d], 0, .error .notFound)
      | some content =>
        let inserted : FileH := ⟨content, content.length⟩
        let newCache := prune st.budget (Store.insert st.cache name content)
        some ({ st with cache := newCache },
          [.backendRead d content, .cacheInsert name content, .cachePrune, .seekZero],
          content.length,
          .ok inserted.seekStart)

/-- `CachedBackend::write`, `Cached` arm: rewind the finished temp file,
stream it through the byte counter into the inner backend under
`destination name`, then hand the file to `cache.insert_file`, then prune.
Returns the new state, the effect trace, and the bytes added to
`bytes_uploaded`; `none` embeds the `destination` panic. -/
def cachedWrite (st : CachedState) (name : String) (fh : FileH) :
    Option (CachedState × List Ev × Nat) :=
  let len := fh.content.length
  match destination name with
  | none => none
  | some d =>
    let rewound := fh.seekStart
    let streamed := rewound.readToEnd.take len
    some ({ st with
        backendStore := Store.insert st.backendStore d streamed,
        cache := prune st.budget (Store.insert st.cache name fh.content) },
      [.rewind, .backendWrite d streamed, .cacheInsertFile name fh.content, .cachePrune],
      len)

/-! ## Byte counters over operation sequences -/

/-- A `CachedBackend` in `Cached` mode together with its two counters,
zero-initialized by `CachedBackend::new`. -/
structure CB where
  st : CachedState
  bytes_downloaded : Nat
  bytes_uploaded : Nat
  deriving DecidableEq, Repr

/-- `CachedBackend::new`. -/
def CB.new (st : CachedState) : CB := ⟨st, 0, 0⟩

/-- One facade operation. -/
inductive Op where
  | read (name : String) : Op
  | write (name : String) (fh : FileH) : Op
  deriving DecidableEq, Repr

/-- Bytes an effect physically transfers from the backend to this host. -/
def evDown : Ev → Nat
  | .backendRead _ content => content.length
  | _ => 0

/-- Bytes an effect physically transfers from this host to the backend. -/
def evUp : Ev → Nat
  | .backendWrite _ content => content.length
  | _ => 0

def downBytes (evs : List Ev) : Nat := (evs.map evDown).sum

def upBytes (evs : List Ev) : Nat := (evs.map evUp).sum

/-- Run one operation, returning the new backend (counters bumped exactly
as the `AtomicCountRead` wrappers and direct `fetch_add`s do) and its
effect trace.  An operation that panics in the source aborts the process:
it is embedded as a no-op so that a run stops contributing effects. -/
def stepT (cb : CB) (op : Op) : CB × List Ev :=
  match op with
  | .read name =>
    match cachedRead cb.st name with
    | none => (cb, [])
    | some (st2, evs, down, _res) =>
      (⟨st2, cb.bytes_downloaded + down, cb.bytes_uploaded⟩, evs)
  | .write name fh =>
    match cachedWrite cb.st name fh with
    | none => (cb, [])
    | some (st2, evs, up) =>
      (⟨st2, cb.bytes_downloaded, cb.bytes_uploaded + up⟩, evs)

/-- Run a sequence of operations, accumulating the effect trace. -/
def runT (cb : CB) : List Op → CB × List Ev
  | [] => (cb, [])
  | op :: ops =>
    let s := stepT cb op
    let r := runT s.1 ops
    (r.1, s.2 ++ r.2)

/-! ## CachedBackend, Memory mode -/

/-- State of a `CachedBackendKind::Memory` backend: the in-process store
(`memory.rs` is modelled from the spec as a mapping from key to bytes) plus
the process's working directory, where the temp files handed to `write`
live. -/
structure MemState where
  memStore : Store
  disk : Store
  deriving DecidableEq, Repr

/-- `CachedBackend::write`, `Memory` arm: rewind the temp file, stream it
to the in-memory backend under `destination name`, bump `bytes_uploaded`,
and `std::fs::remove_file(name)` the temp file from the working directory.
Returns the new state, the effect trace, the bytes added to
`bytes_uploaded`, and whether the whole call succeeded (`remove_file`
errors when `name` is not in the working directory, after the backend
write has already happened); `none` embeds the `destination` panic. -/
def memoryWrite (st : MemState) (name : String) (fh : FileH) :
    Option (MemState × List Ev × Nat × Bool) :=
  let len := fh.content.length
  match destination name with
  | none => none
  | some d =>
    let rewound := fh.seekStart
    let streamed := rewound.readToEnd.take len
    let written := Store.insert st.memStore d streamed
    match st.disk.lookup name with
    | none =>
      some ({ memStore := written, disk := st.disk },
        [.rewind, .backendWrite d streamed], len, false)
    | some _ =>
      some ({ memStore := written, disk := Store.remove st.disk name },
        [.rewind, .backendWrite d streamed, .removeTempFile name],
        len, true)

/-! ## Tree diff engine (`diff.rs`)

`tree.rs` is not under `src/`; nodes are modelled from the spec (§4.5):
a node carries metadata and contents, where contents are chunk references
for a file, a target for a symlink, or a subtree id for a directory, and
the node's kind is determined by its contents.  Metadata is opaque to
`diff.rs` (only compared for equality), so it is modelled as a bare
natural.  A tree maps path components to nodes (`BTreeMap`: lookup takes
the first binding); a forest maps tree ids to trees.  Paths are lists of
components (`Utf8PathBuf::push`). -/

abbrev Metadata := Nat

inductive NodeContents where
  | file (chunks : List String) : NodeContents
  | symlink (target : String) : NodeContents
  | directory (subtree : String) : NodeContents
  deriving DecidableEq, Repr

/-- `tree::NodeContents::subtree`; `none` embeds the panic on
non-directory contents. -/
def NodeContents.subtree : NodeContents → Option String
  | .directory t => some t
  | _ => none

inductive NodeType where
  | file : NodeType
  | directory : NodeType
  | symlink : NodeType
  deriving DecidableEq, Repr

structure Node where
  metadata : Metadata
  contents : NodeContents
  deriving DecidableEq, Repr

/-- `tree::Node::kind`, determined by the contents. -/
def Node.kind (n : Node) : NodeType :=
  match n.contents with
  | .file _ => .file
  | .symlink _ => .symlink
  | .directory _ => .directory

abbrev Tree := List (String × Node)

abbrev Forest := List (String × Tree)

def Tree.get (t : Tree) (k : String) : Option Node :=
  match t with
  | [] => none
  | (k2, v) :: rest => if k2 = k then some v else Tree.get rest k

def Tree.keys (t : Tree) : List String := t.map Prod.fst

def Forest.get (f : Forest) (k : String) : Option Tree :=
  match f with
  | [] => none
  | (k2, v) :: rest => if k2 = k then some v else Forest.get rest k

/-- Insert into a sorted list without duplicating. -/
def sortedInsert (x : String) : List String → List String
  | [] => [x]
  | y :: ys =>
    if x = y then y :: ys
    else if x < y then x :: y :: ys
    else y :: sortedInsert x ys

/-- The `BTreeSet` of both trees' keys: sorted, duplicate-free. -/
def sortedUnion (l : List String) : List String := l.foldr sortedInsert []

/-- A diff callback invocation.  The engine reports a kind mismatch as one
`typeChanged` event; `defaultTypeChanged` below is the trait's default
body for it. -/
inductive DiffEv where
  | added (path : List String) (node : Node) : DiffEv
  | removed (path : List String) (node : Node) : DiffEv
  | contentsChanged (path : List String) (oldNode newNode : Node) : DiffEv
  | metadataChanged (path : List String) (oldNode newNode : Node) : DiffEv
  | nothingChanged (path : List String) (node : Node) : DiffEv
  | typeChanged (path : List String) (oldNode newNode : Node) : DiffEv
  deriving DecidableEq, Repr

/-- `diff.rs::Callbacks::type_changed`, default implementation: remove the
old node, add the new one. -/
def defaultTypeChanged (path : List String) (oldNode newNode : Node) :
    List DiffEv :=
  [.removed path oldNode, .added path newNode]

mutual

/-- `diff.rs::compare_trees`: look both trees up (`none` embeds the panic
on a missing tree), walk the sorted union of their keys, and dispatch on
presence.  `fuel` bounds the recursion depth through the forest; `none`
also results when it runs out. -/
def compareTrees (fuel : Nat) (a : String × Forest) (b : String × Forest)
    (tree_path : List String) : Option (List DiffEv) :=
  match fuel with
  | 0 => none
  | n + 1 =>
    match Forest.get a.2 a.1, Forest.get b.2 b.1 with
    | some tree1, some tree2 =>
      compareKeys n tree1 a.2 tree2 b.2 tree_path
        (sortedUnion (Tree.keys tree1 ++ Tree.keys tree2))
    | _, _ => none
termination_by (fuel, 0, 0)

/-- The `for path in all_paths` loop body of `compare_trees`. -/
def compareKeys (fuel : Nat) (tree1 : Tree) (forest1 : Forest)
    (tree2 : Tree) (forest2 : Forest) (tree_path : List String) :
    List String → Option (List DiffEv)
  | [] => some []
  | path :: restPaths =>
    let node_path := tree_path ++ [path]
    let head :=
      match Tree.get tree1 path, Tree.get tree2 path with
      | none, none => none
      | none, some new_node => some [.added node_path new_node]
      | some old_node, none => some [.removed node_path old_node]
      | some l, some r => compareNodes fuel (l, forest1) (r, forest2) node_path
    match head, compareKeys fuel tree1 forest1 tree2 forest2 tree_path restPaths with
    | some evs, some evs2 => some (evs ++ evs2)
    | _, _ => none
termination_by paths => (fuel, paths.length + 1, 0)

/-- `diff.rs::compare_nodes`: dispatch on the kind pair. -/
def compareNodes (fuel : Nat) (a : Node × Forest) (b : Node × Forest)
    (path : List String) : Option (List DiffEv) :=
  match a.1.kind, b.1.kind with
  | .file, .file | .symlink, .symlink =>
    if a.1.contents ≠ b.1.contents then
      some [.contentsChanged path a.1 b.1]
    else if a.1.metadata ≠ b.1.metadata then
      some [.metadataChanged path a.1 b.1]
    else
      some [.nothingChanged path b.1]
  | .directory, .directory =>
    let sub :=
      if a.1.contents ≠ b.1.contents then
        match a.1.contents.subtree, b.1.contents.subtree with
        | some t1, some t2 => compareTrees fuel (t1, a.2) (t2, b.2) path
        | _, _ => none
      else some []
    let changed := a.1.contents ≠ b.1.contents ∨ a.1.metadata ≠ b.1.metadata
    match sub with
    | none => none
    | some evs =>
      some (evs ++
        (if a.1.metadata ≠ b.1.metadata then [.metadataChanged path a.1 b.1] else []) ++
        (if changed then [] else [.nothingChanged path a.1]))
  | _, _ => some [.typeChanged path a.1 b.1]
termination_by (fuel, 0, 1)

end

/-! ## Index rebuild protocol (`ui/rebuild_index.rs`)

`index.rs` and `upload.rs` are not under `src/`; they are modelled from
the spec (§4.5–4.6): the indexer consumes the scanned pack metadata and
finalizes an index whose `supersedes` field is the one it was seeded with;
`upload::upload` uploads the emitted index in `LiveFire` mode and discards
it in `DryRun` mode.  The parallel pack scan is modelled by its outcome,
the list of pack ids fed to the indexer.  The upload's success and whether
the indexer emitted an index are parameters of the run, since both are
external effects the driver only observes. -/

/-- Modelled from the spec: `index::Index`, as far as the rebuild needs
it — the set of superseded index ids and the pack ids it covers. -/
structure Index where
  supersedes : List String
  packs : List String
  deriving DecidableEq, Repr

/-- An observable repository action of the rebuild driver. -/
inductive RAct where
  | uploadIndex (idx : Index) : RAct
  | removeIndex (id : String) : RAct
  deriving DecidableEq, Repr

/-- `superseded` in `rebuild_index.rs::run`: parse every listed index key
with `id_from_path` and collect the ids into a `BTreeSet` (sorted,
duplicate-free); `none` embeds the `collect::<Result<…>>` error when any
key fails to parse. -/
def parseIds (listing : List (String × Nat)) : Option (List String) :=
  match listing.mapM (fun e => idFromPath e.1) with
  | none => none
  | some ids => some (sortedUnion ids)

/-- `rebuild_index.rs::run`, from the initial `list_indexes` result on:
seed the indexer with `supersedes = S`, scan packs, upload (or discard on
a dry run), check the indexer built an index, and only then retire every
index in `S`.  Returns the constructed index, the repository actions
actually performed in order, and whether the run succeeded; `none` embeds
the id-parse failure, which aborts before anything is built. -/
def rebuildRun (indexListing : List (String × Nat)) (packIds : List String)
    (dryRun uploadOk indexBuilt : Bool) :
    Option (Index × List RAct × Bool) :=
  match parseIds indexListing with
  | none => none
  | some superseded =>
    let newIndex : Index := { supersedes := superseded, packs := packIds }
    -- upload::upload: only in LiveFire mode, and only when the indexer
    -- emitted an index, does a completed upload action occur
    let uploadActs : List RAct :=
      if !dryRun && indexBuilt && uploadOk then [.uploadIndex newIndex] else []
    if !uploadOk then
      -- upload::upload failed; `?` aborts before any retirement
      some (newIndex, uploadActs, false)
    else if !indexBuilt then
      -- ensure!(…, "No new index built") aborts before any retirement
      some (newIndex, uploadActs, false)
    else if dryRun then
      some (newIndex, uploadActs, true)
    else
      some (newIndex, uploadActs ++ superseded.map RAct.removeIndex, true)

/-! ## Helper lemmas -/

theorem toList_append (s t : String) : (s ++ t).toList = s.toList ++ t.toList := by
  simp [String.toList]

theorem splitLast_eq_none {c : Char} {l : List Char} (h : c ∉ l) :
    splitLast c l = none := by
  induction l with
  | nil => rfl
  | cons x xs ih =>
    rw [List.mem_cons, not_or] at h
    rw [splitLast, ih h.2]
    simp [Ne.symm h.1]

theorem splitLast_append {c : Char} (a : List Char) {b : List Char} (h : c ∉ b) :
    splitLast c (a ++ c :: b) = some (a, b) := by
  induction a with
  | nil => rw [List.nil_append, splitLast, splitLast_eq_none h]; simp
  | cons x xs ih => rw [List.cons_append, splitLast, ih]

theorem fileName_of_no_slash {s : String} (h : ('/' : Char) ∉ s.toList)
    (hlen : 2 < s.toList.length) : fileName s = some s.toList := by
  unfold fileName
  rw [splitLast_eq_none h]
  rw [if_neg]
  push_neg
  refine ⟨?_, ?_, ?_⟩ <;>
    · intro e
      rw [e] at hlen
      simp at hlen

theorem fileName_of_last_slash {s : String} {pre rest : List Char}
    (hs : s.toList = pre ++ '/' :: rest) (hr : ('/' : Char) ∉ rest)
    (hlen : 2 < rest.length) : fileName s = some rest := by
  unfold fileName
  rw [hs, splitLast_append pre hr]
  rw [if_neg]
  push_neg
  refine ⟨?_, ?_, ?_⟩ <;>
    · intro e
      rw [e] at hlen
      simp at hlen

theorem extension_eq {s : String} {stem ext : List Char}
    (hname : fileName s = some (stem ++ '.' :: ext)) (hstem : stem ≠ [])
    (hext : ('.' : Char) ∉ ext) : extension s = some ext.asString := by
  unfold extension
  rw [hname]
  simp only [splitLast_append stem hext]
  rw [if_neg hstem]

theorem fileStem_eq {s : String} {stem ext : List Char}
    (hname : fileName s = some (stem ++ '.' :: ext)) (hstem : stem ≠ [])
    (hext : ('.' : Char) ∉ ext) : fileStem s = some stem.asString := by
  unfold fileStem
  rw [hname]
  simp only [splitLast_append stem hext]
  rw [if_neg hstem]

theorem Store.lookup_insert_self (st : Store) (k : String) (v : Bytes) :
    Store.lookup (Store.insert st k v) k = some v := by
  induction st with
  | nil => simp [Store.insert, Store.remove, Store.lookup]
  | cons e rest ih =>
    by_cases he : e.1 = k
    · simpa [Store.insert, Store.remove, he] using ih
    · simpa [Store.insert, Store.remove, he, Store.lookup] using ih

theorem Store.lookup_remove_self (st : Store) (k : String) :
    Store.lookup (Store.remove st k) k = none := by
  induction st with
  | nil => rfl
  | cons e rest ih =>
    by_cases he : e.1 = k
    · simpa [Store.remove, he] using ih
    · simpa [Store.remove, he, Store.lookup] using ih

/-! ## Claim theorems -/

/-- C4: for every name whose extension is `pack`, `index`, or `snapshot`,
`destination` prepends `packs/`, `indexes/`, or `snapshots/` respectively;
any other extension, or the absence of one, is the `panic!` (embedded as
`none`). -/
theorem claim_C4 (name : String) :
    (extension name = some "pack" → destination name = some ("packs/" ++ name)) ∧
    (extension name = some "index" → destination name = some ("indexes/" ++ name)) ∧
    (extension name = some "snapshot" → destination name = some ("snapshots/" ++ name)) ∧
    (∀ e, extension name = some e → e ≠ "pack" → e ≠ "index" → e ≠ "snapshot" →
      destination name = none) ∧
    (extension name = none → destination name = none) := by
  refine ⟨fun h => ?_, fun h => ?_, fun h => ?_, fun e he h1 h2 h3 => ?_, fun h => ?_⟩ <;>
    simp [destination, *]

/-- C4 witness: a concrete instance for each hypothesis of `claim_C4`. -/
theorem claim_C4_witness :
    destination "x.pack" = some "packs/x.pack" ∧
    destination "x.index" = some "indexes/x.index" ∧
    destination "x.snapshot" = some "snapshots/x.snapshot" ∧
    destination "x.tmp" = none ∧
    destination "xyz" = none :=
  ⟨(claim_C4 "x.pack").1 (by decide),
   (claim_C4 "x.index").2.1 (by decide),
   (claim_C4 "x.snapshot").2.2.1 (by decide),
   (claim_C4 "x.tmp").2.2.2.1 "tmp" (by decide) (by decide) (by decide) (by decide),
   (claim_C4 "xyz").2.2.2.2 (by decide)⟩

/-- C7: `probe_pack` succeeds exactly when one listing entry has key
`packs/<id>.pack`; zero matches give the recoverable not-found error and
two or more the fatal panic. -/
theorem claim_C7 (packs : List (String × Nat)) (id : String) :
    (probePack packs id = .ok ↔
      ((packs.map Prod.fst).filter
        (fun s => s = "packs/" ++ id ++ ".pack")).length = 1) ∧
    (probePack packs id = .notFound ↔
      ((packs.map Prod.fst).filter
        (fun s => s = "packs/" ++ id ++ ".pack")).length = 0) ∧
    (probePack packs id = .fatalPanic ↔
      2 ≤ ((packs.map Prod.fst).filter
        (fun s => s = "packs/" ++ id ++ ".pack")).length) := by
  have key : ∀ n : Nat,
      ((match n with
        | 0 => ProbeOutcome.notFound | 1 => ProbeOutcome.ok
        | _ => ProbeOutcome.fatalPanic) = ProbeOutcome.ok ↔ n = 1) ∧
      ((match n with
        | 0 => ProbeOutcome.notFound | 1 => ProbeOutcome.ok
        | _ => ProbeOutcome.fatalPanic) = ProbeOutcome.notFound ↔ n = 0) ∧
      ((match n with
        | 0 => ProbeOutcome.notFound | 1 => ProbeOutcome.ok
        | _ => ProbeOutcome.fatalPanic) = ProbeOutcome.fatalPanic ↔ 2 ≤ n) := by
    intro n
    rcases n with _ | _ | m <;> simp
  exact key _

theorem validId_facts {id : String} (hid : validId id = true) :
    id.toList ≠ [] ∧ ('.' : Char) ∉ id.toList ∧ ('/' : Char) ∉ id.toList := by
  unfold validId at hid
  rw [Bool.and_eq_true, List.all_eq_true] at hid
  obtain ⟨hne, hall⟩ := hid
  refine ⟨?_, ?_, ?_⟩
  · intro e
    rw [e] at hne
    simp at hne
  · intro hmem
    have := hall _ hmem
    exact absurd this (by decide)
  · intro hmem
    have := hall _ hmem
    exact absurd this (by decide)

theorem extension_concat (id k : String) (hid : validId id = true)
    (hkdot : ('.' : Char) ∉ k.toList) (hkslash : ('/' : Char) ∉ k.toList)
    (hklen : k.toList ≠ []) : extension (id ++ "." ++ k) = some k := by
  obtain ⟨hne, _hdot, hslash⟩ := validId_facts hid
  have hdotL : ("." : String).toList = ['.'] := rfl
  have h1 : (id ++ "." ++ k).toList = id.toList ++ '.' :: k.toList := by
    simp [toList_append, hdotL]
  have hsl : ('/' : Char) ∉ (id ++ "." ++ k).toList := by
    rw [h1]
    simp only [List.mem_append, List.mem_cons]
    push_neg
    exact ⟨hslash, by decide, hkslash⟩
  have hlen : 2 < (id ++ "." ++ k).toList.length := by
    rw [h1]
    have h2 := List.length_pos.mpr hne
    have h3 := List.length_pos.mpr hklen
    simp only [List.length_append, List.length_cons]
    omega
  have hfn := fileName_of_no_slash hsl hlen
  rw [h1] at hfn
  have h4 := extension_eq hfn hne hkdot
  rwa [String.asString_toList] at h4

theorem idFromPath_concat (preS : String) (preL : List Char) (id k : String)
    (hid : validId id = true) (hpreL : preS.toList = preL ++ ['/'])
    (hkdot : ('.' : Char) ∉ k.toList) (hkslash : ('/' : Char) ∉ k.toList)
    (hklen : k.toList ≠ []) :
    idFromPath (preS ++ (id ++ "." ++ k)) = some id := by
  obtain ⟨hne, _hdot, hslash⟩ := validId_facts hid
  have hdotL : ("." : String).toList = ['.'] := rfl
  have h1 : (preS ++ (id ++ "." ++ k)).toList =
      preL ++ '/' :: (id.toList ++ '.' :: k.toList) := by
    rw [toList_append, hpreL, toList_append, toList_append, hdotL]
    simp
  have hr : ('/' : Char) ∉ id.toList ++ '.' :: k.toList := by
    simp only [List.mem_append, List.mem_cons]
    push_neg
    exact ⟨hslash, by decide, hkslash⟩
  have hlen : 2 < (id.toList ++ '.' :: k.toList).length := by
    have h2 := List.length_pos.mpr hne
    have h3 := List.length_pos.mpr hklen
    simp only [List.length_append, List.length_cons]
    omega
  have hfn := fileName_of_last_slash h1 hr hlen
  have hstem := fileStem_eq hfn hne hkdot
  rw [String.asString_toList] at hstem
  simp [idFromPath, hstem, idFromStr, hid]

/-- C10: the reshaped repository key produced by `destination` round-trips
back to the original object id via `id_from_path`, for each of the three
kinds. -/
theorem claim_C10 (id k : String) (hid : validId id = true)
    (hk : k = "pack" ∨ k = "index" ∨ k = "snapshot") :
    ∃ key, destination (id ++ "." ++ k) = some key ∧ idFromPath key = some id := by
  rcases hk with hk | hk | hk <;> subst hk
  · have he := extension_concat id "pack" hid (by decide) (by decide) (by decide)
    exact ⟨"packs/" ++ (id ++ "." ++ "pack"), by simp [destination, he],
      idFromPath_concat "packs/" ['p', 'a', 'c', 'k', 's'] id "pack" hid rfl
        (by decide) (by decide) (by decide)⟩
  · have he := extension_concat id "index" hid (by decide) (by decide) (by decide)
    exact ⟨"indexes/" ++ (id ++ "." ++ "index"), by simp [destination, he],
      idFromPath_concat "indexes/" ['i', 'n', 'd', 'e', 'x', 'e', 's'] id "index" hid rfl
        (by decide) (by decide) (by decide)⟩
  · have he := extension_concat id "snapshot" hid (by decide) (by decide) (by decide)
    exact ⟨"snapshots/" ++ (id ++ "." ++ "snapshot"), by simp [destination, he],
      idFromPath_concat "snapshots/" ['s', 'n', 'a', 'p', 's', 'h', 'o', 't', 's'] id
        "snapshot" hid rfl (by decide) (by decide) (by decide)⟩

/-- C10 witness: the round trip at a concrete id and kind. -/
theorem claim_C10_witness :
    validId "abc234" = true ∧
    ∃ key, destination ("abc234" ++ "." ++ "pack") = some key ∧
      idFromPath key = some "abc234" :=
  ⟨by decide, claim_C10 "abc234" "pack" (by decide) (Or.inl rfl)⟩

/-- C2: a `Cached`-mode write rewinds the file, streams its full contents
to the inner backend under `destination name`, then inserts the same file
into the cache and prunes; in the effect trace every cache insertion comes
strictly after the backend write, so the object is durable at the backend
before it can appear in the cache. -/
theorem claim_C2 (st : CachedState) (name d : String) (fh : FileH)
    (hd : destination name = some d) :
    cachedWrite st name fh =
      some ({ st with
          backendStore := Store.insert st.backendStore d fh.content,
          cache := prune st.budget (Store.insert st.cache name fh.content) },
        [Ev.rewind, Ev.backendWrite d fh.content,
         Ev.cacheInsertFile name fh.content, Ev.cachePrune],
        fh.content.length) ∧
    Store.lookup (Store.insert st.backendStore d fh.content) d = some fh.content ∧
    (∀ (i : Nat) (n : String) (c : Bytes),
      [Ev.rewind, Ev.backendWrite d fh.content,
       Ev.cacheInsertFile name fh.content, Ev.cachePrune][i]? =
        some (Ev.cacheInsertFile n c) →
      ∃ j : Nat, j < i ∧
        [Ev.rewind, Ev.backendWrite d fh.content,
         Ev.cacheInsertFile name fh.content, Ev.cachePrune][j]? =
          some (Ev.backendWrite d fh.content)) := by
  refine ⟨?_, Store.lookup_insert_self _ _ _, ?_⟩
  · unfold cachedWrite
    rw [hd]
    simp [FileH.seekStart, FileH.readToEnd]
  · intro i n c h
    rcases i with _ | _ | _ | _ | i
    · simp at h
    · simp at h
    · exact ⟨1, by omega, rfl⟩
    · simp at h
    · simp at h

/-- C2 witness: the write equation at a concrete state and file. -/
theorem claim_C2_witness :
    cachedWrite ⟨[], 0, CacheBehavior.normal, []⟩ "a.pack" ⟨[1], 1⟩ =
      some ({ cache := prune 0 (Store.insert [] "a.pack" [1]),
              budget := 0, behavior := CacheBehavior.normal,
              backendStore := Store.insert [] "packs/a.pack" [1] },
        [Ev.rewind, Ev.backendWrite "packs/a.pack" [1],
         Ev.cacheInsertFile "a.pack" [1], Ev.cachePrune], 1) :=
  (claim_C2 ⟨[], 0, CacheBehavior.normal, []⟩ "a.pack" "packs/a.pack" ⟨[1], 1⟩
    (by decide)).1

/-- C3: a `Cached`-mode read with `Normal` behavior and a cache hit returns
the cached handle with no backend contact; on a miss, or always under
`AlwaysRead`, the object is fetched from the backend at `destination name`,
inserted into the cache, the cache is pruned, and the returned handle is
rewound to offset zero. -/
theorem claim_C3 (st : CachedState) (name d : String) (hd : destination name = some d) :
    (∀ hit, st.behavior = CacheBehavior.normal →
      Store.lookup st.cache name = some hit →
      cachedRead st name =
        some (st, [Ev.cacheTryReadHit name], 0, Except.ok ⟨hit, 0⟩)) ∧
    (∀ content,
      (st.behavior = CacheBehavior.alwaysRead ∨ Store.lookup st.cache name = none) →
      Store.lookup st.backendStore d = some content →
      cachedRead st name =
        some ({ st with cache := prune st.budget (Store.insert st.cache name content) },
          [Ev.backendRead d content, Ev.cacheInsert name content,
           Ev.cachePrune, Ev.seekZero],
          content.length, Except.ok ⟨content, 0⟩)) := by
  constructor
  · intro hit hb hc
    unfold cachedRead
    rw [hd]
    simp [hb, hc]
  · intro content hmiss hb
    unfold cachedRead
    rw [hd]
    rcases hmiss with h | h
    · simp [h, hb, FileH.seekStart]
    · by_cases hb2 : st.behavior = CacheBehavior.alwaysRead <;>
        simp [hb2, h, hb, FileH.seekStart]

/-- C3 witness: a concrete cache hit and a concrete miss. -/
theorem claim_C3_witness :
    cachedRead ⟨[("a.pack", [7])], 9, CacheBehavior.normal, []⟩ "a.pack" =
      some (⟨[("a.pack", [7])], 9, CacheBehavior.normal, []⟩,
        [Ev.cacheTryReadHit "a.pack"], 0, Except.ok ⟨[7], 0⟩) ∧
    cachedRead ⟨[], 9, CacheBehavior.normal, [("packs/a.pack", [7, 8])]⟩ "a.pack" =
      some ({ cache := prune 9 (Store.insert [] "a.pack" [7, 8]),
              budget := 9, behavior := CacheBehavior.normal,
              backendStore := [("packs/a.pack", [7, 8])] },
        [Ev.backendRead "packs/a.pack" [7, 8], Ev.cacheInsert "a.pack" [7, 8],
         Ev.cachePrune, Ev.seekZero], 2, Except.ok ⟨[7, 8], 0⟩) :=
  ⟨(claim_C3 ⟨[("a.pack", [7])], 9, CacheBehavior.normal, []⟩ "a.pack" "packs/a.pack"
      (by decide)).1 [7] rfl (by decide),
   (claim_C3 ⟨[], 9, CacheBehavior.normal, [("packs/a.pack", [7, 8])]⟩ "a.pack"
      "packs/a.pack" (by decide)).2 [7, 8] (Or.inr (by decide)) (by decide)⟩

/-- C9: a `Memory`-mode write rewinds the file, stores its contents in the
in-memory backend under `destination name`, and removes the temp file from
the working directory. -/
theorem claim_C9 (st : MemState) (name d : String) (fh : FileH) (c : Bytes)
    (hd : destination name = some d) (hdisk : Store.lookup st.disk name = some c) :
    memoryWrite st name fh =
      some ({ memStore := Store.insert st.memStore d fh.content,
              disk := Store.remove st.disk name },
        [Ev.rewind, Ev.backendWrite d fh.content, Ev.removeTempFile name],
        fh.content.length, true) ∧
    Store.lookup (Store.insert st.memStore d fh.content) d = some fh.content ∧
    Store.lookup (Store.remove st.disk name) name = none := by
  refine ⟨?_, Store.lookup_insert_self _ _ _, Store.lookup_remove_self _ _⟩
  unfold memoryWrite
  rw [hd]
  simp [hdisk, FileH.seekStart, FileH.readToEnd]

/-- C9 witness: the memory write equation at a concrete state and file. -/
theorem claim_C9_witness :
    memoryWrite ⟨[], [("a.pack", [3, 4])]⟩ "a.pack" ⟨[3, 4], 2⟩ =
      some ({ memStore := Store.insert [] "packs/a.pack" [3, 4],
              disk := Store.remove [("a.pack", [3, 4])] "a.pack" },
        [Ev.rewind, Ev.backendWrite "packs/a.pack" [3, 4],
         Ev.removeTempFile "a.pack"], 2, true) :=
  (claim_C9 ⟨[], [("a.pack", [3, 4])]⟩ "a.pack" "packs/a.pack" ⟨[3, 4], 2⟩ [3, 4]
    (by decide) (by decide)).1

theorem compareNodes_eq_file (fuel : Nat) (n1 n2 : Node) (f1 f2 : Forest)
    (path : List String)
    (h : (n1.kind = NodeType.file ∧ n2.kind = NodeType.file) ∨
      (n1.kind = NodeType.symlink ∧ n2.kind = NodeType.symlink)) :
    compareNodes fuel (n1, f1) (n2, f2) path =
      some (if n1.contents ≠ n2.contents then [DiffEv.contentsChanged path n1 n2]
        else if n1.metadata ≠ n2.metadata then [DiffEv.metadataChanged path n1 n2]
        else [DiffEv.nothingChanged path n2]) := by
  unfold compareNodes
  rcases h with ⟨h1, h2⟩ | ⟨h1, h2⟩ <;> simp only [h1, h2] <;> split_ifs <;> rfl

theorem compareNodes_dir (fuel : Nat) (m1 m2 : Metadata) (t1 t2 : String)
    (f1 f2 : Forest) (path : List String) :
    compareNodes fuel (⟨m1, NodeContents.directory t1⟩, f1)
      (⟨m2, NodeContents.directory t2⟩, f2) path =
      match (if t1 = t2 then some [] else compareTrees fuel (t1, f1) (t2, f2) path) with
      | none => none
      | some evs =>
        some (evs ++
          (if m1 ≠ m2 then
            [DiffEv.metadataChanged path ⟨m1, NodeContents.directory t1⟩
              ⟨m2, NodeContents.directory t2⟩]
          else []) ++
          (if t1 = t2 ∧ m1 = m2 then
            [DiffEv.nothingChanged path ⟨m1, NodeContents.directory t1⟩]
          else [])) := by
  unfold compareNodes
  simp only [Node.kind]
  by_cases he : t1 = t2
  · subst he
    by_cases hm : m1 = m2 <;> simp [NodeContents.subtree, hm]
  · by_cases hm : m1 = m2 <;>
      · rcases hc : compareTrees fuel (t1, f1) (t2, f2) path with _ | evs <;>
          simp [NodeContents.subtree, he, hm, hc]

theorem compareNodes_mismatch (fuel : Nat) (n1 n2 : Node) (f1 f2 : Forest)
    (path : List String) (h : n1.kind ≠ n2.kind) :
    compareNodes fuel (n1, f1) (n2, f2) path =
      some [DiffEv.typeChanged path n1 n2] := by
  unfold compareNodes
  rcases n1 with ⟨m1, c1⟩
  rcases n2 with ⟨m2, c2⟩
  rcases c1 with ch1 | tg1 | t1 <;> rcases c2 with ch2 | tg2 | t2 <;>
    simp_all [Node.kind]

/-- C5: `compare_nodes` dispatch — files and symlinks compare contents then
metadata; directories recurse into `compare_trees` when the subtree refs
differ and report metadata changes second, with `nothing_changed` when
neither differs; mismatched kinds yield `type_changed`, whose default
implementation is remove-then-add. -/
theorem claim_C5 (fuel : Nat) (n1 n2 : Node) (f1 f2 : Forest) (path : List String) :
    ((n1.kind = NodeType.file ∧ n2.kind = NodeType.file) ∨
      (n1.kind = NodeType.symlink ∧ n2.kind = NodeType.symlink) →
      compareNodes fuel (n1, f1) (n2, f2) path =
        some (if n1.contents ≠ n2.contents then [DiffEv.contentsChanged path n1 n2]
          else if n1.metadata ≠ n2.metadata then [DiffEv.metadataChanged path n1 n2]
          else [DiffEv.nothingChanged path n2])) ∧
    (∀ t1 t2, n1.contents = NodeContents.directory t1 →
      n2.contents = NodeContents.directory t2 → n1.contents ≠ n2.contents →
      compareNodes fuel (n1, f1) (n2, f2) path =
        (compareTrees fuel (t1, f1) (t2, f2) path).map
          (fun evs => evs ++
            (if n1.metadata ≠ n2.metadata
              then [DiffEv.metadataChanged path n1 n2] else []))) ∧
    (n1.kind = NodeType.directory → n2.kind = NodeType.directory →
      n1.contents = n2.contents → n1.metadata = n2.metadata →
      compareNodes fuel (n1, f1) (n2, f2) path =
        some [DiffEv.nothingChanged path n1]) ∧
    (n1.kind = NodeType.directory → n2.kind = NodeType.directory →
      n1.contents = n2.contents → n1.metadata ≠ n2.metadata →
      compareNodes fuel (n1, f1) (n2, f2) path =
        some [DiffEv.metadataChanged path n1 n2]) ∧
    (n1.kind ≠ n2.kind →
      compareNodes fuel (n1, f1) (n2, f2) path =
        some [DiffEv.typeChanged path n1 n2]) ∧
    defaultTypeChanged path n1 n2 = [DiffEv.removed path n1, DiffEv.added path n2] := by
  refine ⟨compareNodes_eq_file fuel n1 n2 f1 f2 path, ?_, ?_, ?_,
    compareNodes_mismatch fuel n1 n2 f1 f2 path, rfl⟩
  · intro t1 t2 h1 h2 hne
    rcases n1 with ⟨m1, c1⟩
    rcases n2 with ⟨m2, c2⟩
    simp only at h1 h2
    subst h1
    subst h2
    rw [compareNodes_dir]
    have ht : ¬t1 = t2 := by
      intro e
      exact hne (by rw [e])
    rcases hc : compareTrees fuel (t1, f1) (t2, f2) path with _ | evs <;>
      simp [ht, hc]
  · intro h1 h2 hc hm
    rcases n1 with ⟨m1, c1⟩
    rcases n2 with ⟨m2, c2⟩
    simp only at hc hm
    rcases c1 with ch1 | tg1 | t1 <;> simp_all [Node.kind]
    subst hc
    rw [compareNodes_dir]
    simp [hm]
  · intro h1 h2 hc hm
    rcases n1 with ⟨m1, c1⟩
    rcases n2 with ⟨m2, c2⟩
    simp only at hc hm
    rcases c1 with ch1 | tg1 | t1 <;> simp_all [Node.kind]
    subst hc
    rw [compareNodes_dir]
    simp [hm]

/-- C5 witness: concrete instances for the file, directory, and mismatch
branches. -/
theorem claim_C5_witness :
    compareNodes 1 (⟨0, NodeContents.file ["x"]⟩, []) (⟨0, NodeContents.file ["y"]⟩, []) [] =
      some [DiffEv.contentsChanged [] ⟨0, NodeContents.file ["x"]⟩ ⟨0, NodeContents.file ["y"]⟩] ∧
    compareNodes 1 (⟨0, NodeContents.directory "t"⟩, []) (⟨1, NodeContents.directory "t"⟩, []) [] =
      some [DiffEv.metadataChanged [] ⟨0, NodeContents.directory "t"⟩ ⟨1, NodeContents.directory "t"⟩] ∧
    compareNodes 1 (⟨0, NodeContents.file ["x"]⟩, []) (⟨0, NodeContents.directory "t"⟩, []) [] =
      some [DiffEv.typeChanged [] ⟨0, NodeContents.file ["x"]⟩ ⟨0, NodeContents.directory "t"⟩] := by
  refine ⟨?_, ?_, ?_⟩
  · have h := (claim_C5 1 ⟨0, NodeContents.file ["x"]⟩ ⟨0, NodeContents.file ["y"]⟩
      [] [] []).1 (Or.inl ⟨rfl, rfl⟩)
    simpa using h
  · have h := (claim_C5 1 ⟨0, NodeContents.directory "t"⟩ ⟨1, NodeContents.directory "t"⟩
      [] [] []).2.2.2.1 rfl rfl rfl (by decide)
    simpa using h
  · exact (claim_C5 1 ⟨0, NodeContents.file ["x"]⟩ ⟨0, NodeContents.directory "t"⟩
      [] [] []).2.2.2.2.1 (by decide)

theorem mem_sortedInsert (x y : String) (l : List String) :
    y ∈ sortedInsert x l ↔ y = x ∨ y ∈ l := by
  induction l with
  | nil => simp [sortedInsert]
  | cons z zs ih =>
    unfold sortedInsert
    by_cases he : x = z
    · subst he
      simp
    · by_cases hlt : x < z
      · simp [he, hlt]
      · simp [he, hlt, ih]
        tauto

theorem mem_sortedUnion (x : String) (l : List String) :
    x ∈ sortedUnion l → x ∈ l := by
  induction l with
  | nil => simp [sortedUnion]
  | cons z zs ih =>
    intro h
    rw [sortedUnion, List.foldr_cons, mem_sortedInsert] at h
    rcases h with h | h
    · simp [h]
    · simp [ih h]

theorem Tree.get_of_mem_keys (t : Tree) (k : String) (h : k ∈ Tree.keys t) :
    ∃ n, Tree.get t k = some n := by
  induction t with
  | nil => simp [Tree.keys] at h
  | cons e rest ih =>
    by_cases he : e.1 = k
    · exact ⟨e.2, by simp [Tree.get, he]⟩
    · rw [Tree.keys, List.map_cons, List.mem_cons] at h
      rcases h with h | h
      · exact absurd h.symm he
      · obtain ⟨n, hn⟩ := ih h
        exact ⟨n, by simp [Tree.get, he, hn]⟩

theorem compareNodes_refl (fuel : Nat) (n : Node) (f1 f2 : Forest)
    (path : List String) :
    compareNodes fuel (n, f1) (n, f2) path =
      some [DiffEv.nothingChanged path n] := by
  rcases n with ⟨m, c⟩
  rcases c with ch | tg | t
  · simpa using compareNodes_eq_file fuel ⟨m, .file ch⟩ ⟨m, .file ch⟩ f1 f2 path
      (Or.inl ⟨rfl, rfl⟩)
  · simpa using compareNodes_eq_file fuel ⟨m, .symlink tg⟩ ⟨m, .symlink tg⟩ f1 f2 path
      (Or.inr ⟨rfl, rfl⟩)
  · rw [compareNodes_dir]
    simp

theorem compareKeys_refl (fuel : Nat) (t : Tree) (f1 f2 : Forest)
    (p : List String) (paths : List String)
    (h : ∀ q ∈ paths, ∃ n, Tree.get t q = some n) :
    ∃ evs, compareKeys fuel t f1 t f2 p paths = some evs ∧
      ∀ e ∈ evs, ∃ q n, e = DiffEv.nothingChanged q n := by
  induction paths with
  | nil => exact ⟨[], by simp [compareKeys], by simp⟩
  | cons q rest ih =>
    obtain ⟨n, hn⟩ := h q (by simp)
    obtain ⟨evs2, h2, hall2⟩ := ih (fun r hr => h r (by simp [hr]))
    refine ⟨DiffEv.nothingChanged (p ++ [q]) n :: evs2, ?_, ?_⟩
    · rw [compareKeys, hn]
      simp [compareNodes_refl, h2]
    · intro e he
      rcases List.mem_cons.mp he with he | he
      · exact ⟨p ++ [q], n, he⟩
      · exact hall2 e he

/-- C6: diff is reflexive — comparing a tree id against itself over the
same forest emits only `nothing_changed` events (no adds, removes, content,
metadata, or type changes), provided the forest holds the tree.  Identical
nodes never differ in contents, so the directory branch never recurses and
one unit of fuel suffices. -/
theorem claim_C6 (fuel : Nat) (a : String) (f : Forest) (t : Tree)
    (p : List String) (hf : Forest.get f a = some t) (hfuel : 1 ≤ fuel) :
    ∃ evs, compareTrees fuel (a, f) (a, f) p = some evs ∧
      ∀ e ∈ evs, ∃ q n, e = DiffEv.nothingChanged q n := by
  rcases fuel with _ | n
  · omega
  · rw [compareTrees]
    simp only [hf]
    exact compareKeys_refl n t f f p (sortedUnion (Tree.keys t ++ Tree.keys t))
      (fun q hq => Tree.get_of_mem_keys t q
        (by simpa using mem_sortedUnion q _ hq))

/-- C6 witness: reflexive diff of a concrete two-entry tree. -/
theorem claim_C6_witness :
    Forest.get [("t1", [("bar", (⟨0, NodeContents.file ["x"]⟩ : Node))])] "t1" =
      some [("bar", ⟨0, NodeContents.file ["x"]⟩)] ∧
    ∃ evs,
      compareTrees 1 ("t1", [("t1", [("bar", ⟨0, NodeContents.file ["x"]⟩)])])
        ("t1", [("t1", [("bar", ⟨0, NodeContents.file ["x"]⟩)])]) [] = some evs ∧
      ∀ e ∈ evs, ∃ q n, e = DiffEv.nothingChanged q n :=
  ⟨rfl, claim_C6 1 "t1" [("t1", [("bar", ⟨0, NodeContents.file ["x"]⟩)])]
    [("bar", ⟨0, NodeContents.file ["x"]⟩)] [] (by decide) (by decide)⟩

theorem downBytes_append (l1 l2 : List Ev) :
    downBytes (l1 ++ l2) = downBytes l1 + downBytes l2 := by
  simp [downBytes]

theorem upBytes_append (l1 l2 : List Ev) :
    upBytes (l1 ++ l2) = upBytes l1 + upBytes l2 := by
  simp [upBytes]

theorem cachedRead_counts {st : CachedState} {name : String}
    {st2 : CachedState} {evs : List Ev} {down : Nat} {res : Except ReadErr FileH}
    (h : cachedRead st name = some (st2, evs, down, res)) :
    down = downBytes evs ∧ upBytes evs = 0 := by
  unfold cachedRead at h
  rcases hd : destination name with _ | d <;> rw [hd] at h
  · exact absurd h (by simp)
  · dsimp only at h
    rcases hif : (if st.behavior = CacheBehavior.alwaysRead then none
        else Store.lookup st.cache name) with _ | hit <;> rw [hif] at h
    · rcases hb : Store.lookup st.backendStore d with _ | content <;> rw [hb] at h <;>
        · simp only [Option.some.injEq, Prod.mk.injEq] at h
          obtain ⟨_, he, hdown, _⟩ := h
          subst he
          subst hdown
          simp [downBytes, upBytes, evDown, evUp]
    · simp only [Option.some.injEq, Prod.mk.injEq] at h
      obtain ⟨_, he, hdown, _⟩ := h
      subst he
      subst hdown
      simp [downBytes, upBytes, evDown, evUp]

theorem cachedWrite_counts {st : CachedState} {name : String} {fh : FileH}
    {st2 : CachedState} {evs : List Ev} {up : Nat}
    (h : cachedWrite st name fh = some (st2, evs, up)) :
    up = upBytes evs ∧ downBytes evs = 0 := by
  unfold cachedWrite at h
  rcases hd : destination name with _ | d <;> rw [hd] at h
  · exact absurd h (by simp)
  · simp only [Option.some.injEq, Prod.mk.injEq] at h
    obtain ⟨_, he, hup⟩ := h
    subst he
    subst hup
    simp [downBytes, upBytes, evDown, evUp, FileH.seekStart, FileH.readToEnd]

theorem stepT_counts (cb : CB) (op : Op) :
    (stepT cb op).1.bytes_downloaded =
      cb.bytes_downloaded + downBytes (stepT cb op).2 ∧
    (stepT cb op).1.bytes_uploaded =
      cb.bytes_uploaded + upBytes (stepT cb op).2 := by
  rcases op with name | ⟨name, fh⟩
  · unfold stepT
    dsimp only
    rcases h : cachedRead cb.st name with _ | ⟨st2, evs, down, res⟩
    · simp [downBytes, upBytes]
    · obtain ⟨h1, h2⟩ := cachedRead_counts h
      simp [h1, h2]
  · unfold stepT
    dsimp only
    rcases h : cachedWrite cb.st name fh with _ | ⟨st2, evs, up⟩
    · simp [downBytes, upBytes]
    · obtain ⟨h1, h2⟩ := cachedWrite_counts h
      simp [h1, h2]

theorem runT_counts (cb : CB) (ops : List Op) :
    (runT cb ops).1.bytes_downloaded =
      cb.bytes_downloaded + downBytes (runT cb ops).2 ∧
    (runT cb ops).1.bytes_uploaded =
      cb.bytes_uploaded + upBytes (runT cb ops).2 := by
  induction ops generalizing cb with
  | nil => simp [runT, downBytes, upBytes]
  | cons op ops ih =>
    unfold runT
    obtain ⟨h1, h2⟩ := stepT_counts cb op
    obtain ⟨h3, h4⟩ := ih (stepT cb op).1
    rw [downBytes_append, upBytes_append]
    constructor <;> dsimp only <;> omega

theorem runT_append (cb : CB) (l1 l2 : List Op) :
    runT cb (l1 ++ l2) =
      ((runT (runT cb l1).1 l2).1, (runT cb l1).2 ++ (runT (runT cb l1).1 l2).2) := by
  induction l1 generalizing cb with
  | nil => simp [runT]
  | cons op ops ih =>
    rw [List.cons_append]
    simp only [runT]
    rw [ih (stepT cb op).1]
    simp [List.append_assoc]

/-- C8: the byte counters of a `Cached`-mode backend start at zero, always
equal the sum of the object lengths physically transferred from and to the
inner backend over the effect trace (cache hits transfer nothing), and are
monotonically non-decreasing across every sequence of reads and writes. -/
theorem claim_C8 (st : CachedState) (ops extra : List Op) :
    (CB.new st).bytes_downloaded = 0 ∧ (CB.new st).bytes_uploaded = 0 ∧
    (runT (CB.new st) ops).1.bytes_downloaded = downBytes (runT (CB.new st) ops).2 ∧
    (runT (CB.new st) ops).1.bytes_uploaded = upBytes (runT (CB.new st) ops).2 ∧
    (runT (CB.new st) ops).1.bytes_downloaded ≤
      (runT (CB.new st) (ops ++ extra)).1.bytes_downloaded ∧
    (runT (CB.new st) ops).1.bytes_uploaded ≤
      (runT (CB.new st) (ops ++ extra)).1.bytes_uploaded := by
  obtain ⟨h1, h2⟩ := runT_counts (CB.new st) ops
  obtain ⟨h3, h4⟩ := runT_counts (runT (CB.new st) ops).1 extra
  have hz1 : (CB.new st).bytes_downloaded = 0 := rfl
  have hz2 : (CB.new st).bytes_uploaded = 0 := rfl
  rw [runT_append]
  refine ⟨hz1, hz2, ?_, ?_, ?_, ?_⟩ <;> dsimp only <;> omega

/-- C1: the rebuilt index supersedes exactly the set `S` of index ids
listed at the start of the run; in the performed-action trace every index
removal comes strictly after the successful upload of the new index, the
full retirement of `S` happens exactly in a successful non-dry run, and a
dry run removes nothing. -/
theorem claim_C1 (indexListing : List (String × Nat)) (packIds : List String)
    (dryRun uploadOk indexBuilt : Bool) (S : List String)
    (hS : parseIds indexListing = some S) :
    ∃ newIndex acts ok,
      rebuildRun indexListing packIds dryRun uploadOk indexBuilt =
        some (newIndex, acts, ok) ∧
      newIndex.supersedes = S ∧
      (dryRun = true → ∀ a ∈ acts, ∀ id, a ≠ RAct.removeIndex id) ∧
      (∀ (i : Nat) (id : String), acts[i]? = some (RAct.removeIndex id) →
        ∃ (j : Nat) (idx : Index), j < i ∧ acts[j]? = some (RAct.uploadIndex idx)) ∧
      (uploadOk = true → indexBuilt = true → dryRun = false →
        acts = RAct.uploadIndex newIndex :: S.map RAct.removeIndex) := by
  unfold rebuildRun
  rw [hS]
  rcases dryRun
  case false =>
    rcases uploadOk
    case false =>
      exact ⟨_, _, _, rfl, rfl, by simp, by intro i id h; simp at h, by simp⟩
    case true =>
      rcases indexBuilt
      case false =>
        exact ⟨_, _, _, rfl, rfl, by simp, by intro i id h; simp at h, by simp⟩
      case true =>
        refine ⟨_, _, _, rfl, rfl, by simp, ?_, fun _ _ _ => rfl⟩
        intro i id h
        rcases i with _ | i
        · simp at h
        · exact ⟨0, ⟨S, packIds⟩, by omega, by simp⟩
  case true =>
    rcases uploadOk <;> rcases indexBuilt <;>
      exact ⟨_, _, _, rfl, rfl, by simp, by intro i id h; simp at h, by simp⟩

/-- C1 witness: a concrete live-fire rebuild over one existing index. -/
theorem claim_C1_witness :
    ∃ newIndex acts ok,
      rebuildRun [("indexes/abc.index", 1)] ["p"] false true true =
        some (newIndex, acts, ok) ∧ newIndex.supersedes = ["abc"] := by
  obtain ⟨ni, acts, ok, h1, h2, _⟩ :=
    claim_C1 [("indexes/abc.index", 1)] ["p"] false true true ["abc"] (by decide)
  exact ⟨ni, acts, ok, h1, h2⟩

end Backpak
